import Mathlib

/-!
Shallow embedding of the code-extraction core of `ShiftCodeScraper.py`.

The Python source works over a BeautifulSoup document.  The document is
modelled here as a tree of element and text nodes (`Node` / `Forest`);
elements carry a tag name and an attribute list whose values are either a
plain string or a list of strings (BeautifulSoup's representation of
multi-valued attributes such as `class`).  Traversal primitives used by the
source (`stripped_strings`, `get_text`, `find(id=...)`, `find_parent`,
`find_next`, `find_all`, `select` with a compound `tag.class` selector) are
modelled over this tree, using pre-order positions (paths of child indices)
where the source navigates by parent/next links.

Python string operations are modelled character-exactly on the ASCII range
the scraper works with: `re.split(r"[^A-Za-z0-9-]+", s)` (including the
empty pieces Python produces at the borders), `str.strip`, `str.upper`,
`str.lower`, `str.startswith` and the `in` substring test.  `CODE_REGEX =
^[A-Z0-9]{5}(?:-[A-Z0-9]{5}){4}$` is modelled by splitting on `-` and
checking five groups of five uppercase alphanumerics; `re.match` with a
final `$` also accepts a single trailing newline, which is modelled
faithfully in `codeRegexMatch`.

Python `set` values that the source finally sorts (or only queries for
membership) are represented canonically as strictly sorted duplicate-free
lists built by `insertSortedU`; Python `dict` is represented as an
association list with insert-or-overwrite `dictInsert`, preserving
insertion order exactly as Python dicts do.
-/

namespace ShiftCode

/-- Characters kept by the token splitter `re.split(r"[^A-Za-z0-9-]+", text)`:
the split pattern removes every maximal run of characters outside this set. -/
def isWordChar (c : Char) : Bool :=
  ('A' ≤ c && c ≤ 'Z') || ('a' ≤ c && c ≤ 'z') || ('0' ≤ c && c ≤ '9') || c = '-'

/-- Whitespace characters removed by Python `str.strip()` (ASCII range). -/
def isPySpace (c : Char) : Bool :=
  c = ' ' || c = '\t' || c = '\n' || c = '\r' || c = '\x0b' || c = '\x0c'

/-- Python `str.upper` on a single character, ASCII range. -/
def pyUpperChar (c : Char) : Char :=
  if c = 'a' then 'A' else if c = 'b' then 'B' else if c = 'c' then 'C'
  else if c = 'd' then 'D' else if c = 'e' then 'E' else if c = 'f' then 'F'
  else if c = 'g' then 'G' else if c = 'h' then 'H' else if c = 'i' then 'I'
  else if c = 'j' then 'J' else if c = 'k' then 'K' else if c = 'l' then 'L'
  else if c = 'm' then 'M' else if c = 'n' then 'N' else if c = 'o' then 'O'
  else if c = 'p' then 'P' else if c = 'q' then 'Q' else if c = 'r' then 'R'
  else if c = 's' then 'S' else if c = 't' then 'T' else if c = 'u' then 'U'
  else if c = 'v' then 'V' else if c = 'w' then 'W' else if c = 'x' then 'X'
  else if c = 'y' then 'Y' else if c = 'z' then 'Z' else c

/-- Python `str.lower` on a single character, ASCII range. -/
def pyLowerChar (c : Char) : Char :=
  if c = 'A' then 'a' else if c = 'B' then 'b' else if c = 'C' then 'c'
  else if c = 'D' then 'd' else if c = 'E' then 'e' else if c = 'F' then 'f'
  else if c = 'G' then 'g' else if c = 'H' then 'h' else if c = 'I' then 'i'
  else if c = 'J' then 'j' else if c = 'K' then 'k' else if c = 'L' then 'l'
  else if c = 'M' then 'm' else if c = 'N' then 'n' else if c = 'O' then 'o'
  else if c = 'P' then 'p' else if c = 'Q' then 'q' else if c = 'R' then 'r'
  else if c = 'S' then 's' else if c = 'T' then 't' else if c = 'U' then 'u'
  else if c = 'V' then 'v' else if c = 'W' then 'w' else if c = 'X' then 'x'
  else if c = 'Y' then 'y' else if c = 'Z' then 'z' else c

/-- Python `str.strip()` over a character list. -/
def pyStrip (l : List Char) : List Char :=
  ((l.dropWhile isPySpace).reverse.dropWhile isPySpace).reverse

/-- Python `str.strip()` on a `String`. -/
def pyStripStr (s : String) : String := String.mk (pyStrip s.toList)

/-- Python `str.upper()` on a `String` (ASCII range). -/
def pyUpperStr (s : String) : String := String.mk (s.toList.map pyUpperChar)

/-- Python `str.lower()` on a `String` (ASCII range). -/
def pyLowerStr (s : String) : String := String.mk (s.toList.map pyLowerChar)

/-- Prepends a character to the first piece of a piece list (helper for the
splitters below). -/
def consHead (c : Char) : List (List Char) → List (List Char)
  | [] => [[c]]
  | p :: ps => (c :: p) :: ps

/-- Python `re.split` where the split pattern is "one or more characters not
satisfying `keep`": pieces are the maximal runs of `keep`-characters, with an
empty piece at the front (resp. back) when the input starts (resp. ends)
with a separator, and a single empty piece for the empty input — exactly
`re.split(r"[^A-Za-z0-9-]+", s)` when `keep = isWordChar`. -/
def splitKeep (keep : Char → Bool) : List Char → List (List Char)
  | [] => [[]]
  | c :: rest =>
    if keep c then consHead c (splitKeep keep rest)
    else
      match rest with
      | [] => [] :: splitKeep keep rest
      | d :: _ => if keep d then [] :: splitKeep keep rest else splitKeep keep rest

/-- Splits a character list on a single character (every occurrence is a
separator; adjacent separators yield empty pieces), as in `str.split(ch)`. -/
def splitOnCh (ch : Char) : List Char → List (List Char)
  | [] => [[]]
  | c :: rest =>
    if c = ch then [] :: splitOnCh ch rest else consHead c (splitOnCh ch rest)

/-- Python substring test `pat in s`: does `pat` occur contiguously in `l`? -/
def containsSub (pat : List Char) : List Char → Bool
  | [] => pat.isEmpty
  | c :: rest => pat.isPrefixOf (c :: rest) || containsSub pat rest

/-- Python `str.split()` with no argument: maximal runs of non-whitespace. -/
def splitWsStr (s : String) : List String :=
  ((splitKeep (fun c => !isPySpace c) s.toList).filter (fun p => !p.isEmpty)).map
    (fun l => String.mk l)

/-- Character class `[A-Z0-9]` of `CODE_REGEX`. -/
def isCodeChar (c : Char) : Bool :=
  ('A' ≤ c && c ≤ 'Z') || ('0' ≤ c && c ≤ '9')

/-- One group `[A-Z0-9]{5}` of `CODE_REGEX`. -/
def isCodeGroup (g : List Char) : Bool :=
  g.length = 5 && g.all isCodeChar

/-- Full match of `CODE_REGEX = ^[A-Z0-9]{5}(?:-[A-Z0-9]{5}){4}$`: since the
groups cannot contain `-`, a string matches exactly when splitting it on `-`
yields five pieces that are all five-character uppercase-alphanumeric groups. -/
def isFullCodeMatch (l : List Char) : Bool :=
  (splitOnCh '-' l).length = 5 && (splitOnCh '-' l).all isCodeGroup

/-- Full `CODE_REGEX` match on a `String`. -/
def isFullCodeMatchStr (s : String) : Bool := isFullCodeMatch s.toList

/-- Python `CODE_REGEX.match(s)` viewed as a boolean: the regex is anchored
with `^` and `$`, and Python's `$` also matches just before a single
trailing newline. -/
def codeRegexMatch (l : List Char) : Bool :=
  isFullCodeMatch l ||
    (match l.getLast? with
     | some c => c = '\n' && isFullCodeMatch l.dropLast
     | none => false)

/-- Body of `_collect_code_tokens_from_node_text` (and of the identical
token loops in `extract_codes`, `extract_expired_codes` and
`try_extract_by_class`), over character lists:
split on runs of non-`[A-Za-z0-9-]` characters, strip and uppercase each
piece, and keep the nonempty pieces that `CODE_REGEX` matches. -/
def collectTokensL (text : List Char) : List (List Char) :=
  ((splitKeep isWordChar text).map (fun p => (pyStrip p).map pyUpperChar)).filter
    (fun t => !t.isEmpty && codeRegexMatch t)

/-- `_collect_code_tokens_from_node_text` of the source, on `String`s. -/
def collect_code_tokens (s : String) : List String :=
  (collectTokensL s.toList).map (fun l => String.mk l)

/-- Lexicographic comparison of character lists by code point — the order
Python `sorted` uses on the strings handled here.  (A computable stand-in
for `List Char < List Char`; see `ltCharsB_iff_lt`.) -/
def ltCharsB : List Char → List Char → Bool
  | _, [] => false
  | [], _ :: _ => true
  | a :: as, b :: bs => if a < b then true else if b < a then false else ltCharsB as bs

/-- Lexicographic comparison of strings by code point (Python `<`). -/
def strLtB (s t : String) : Bool := ltCharsB s.toList t.toList

/-- Inserts a string into a strictly sorted duplicate-free list, keeping it
strictly sorted and duplicate-free (the canonical representation used here
for the Python `set` values the source builds and then sorts). -/
def insertSortedU (s : String) : List String → List String
  | [] => [s]
  | t :: ts =>
    if s = t then t :: ts
    else if strLtB s t then s :: t :: ts
    else t :: insertSortedU s ts

/-- Python `sorted(set(l))`: the distinct elements of `l` in ascending order. -/
def sortedDedupStr (l : List String) : List String :=
  l.foldl (fun acc s => insertSortedU s acc) []

end ShiftCode

namespace ShiftCode

mutual
/-- A node of the parsed document: an element with tag name, attributes and
children, or a text node (BeautifulSoup `Tag` / `NavigableString`). -/
inductive Node where
  | elem : String → List (String × AttrValue) → Forest → Node
  | text : String → Node

/-- A sequence of sibling nodes. -/
inductive Forest where
  | nil : Forest
  | cons : Node → Forest → Forest

/-- An HTML attribute value: a plain string, or a list of strings for
multi-valued attributes such as `class` (BeautifulSoup's representation). -/
inductive AttrValue where
  | str : String → AttrValue
  | strs : List String → AttrValue
end

/-- Builds a `Forest` from a list of nodes. -/
def ofList : List Node → Forest
  | [] => .nil
  | n :: ns => .cons n (ofList ns)

/-- Tag name of a node (text nodes get the empty tag, which never collides
with a real tag name). -/
def tagOf : Node → String
  | .elem t _ _ => t
  | .text _ => ""

/-- Attribute list of a node. -/
def attrsOf : Node → List (String × AttrValue)
  | .elem _ a _ => a
  | .text _ => []

/-- True on element nodes. -/
def isElemNode : Node → Bool
  | .elem _ _ _ => true
  | .text _ => false

mutual
/-- Pre-order flattening of a subtree: every node of the subtree (the root
included) with its position, a path of child indices from the document root.
Pre-order is exactly BeautifulSoup's document order. -/
def nodeFlat : List Nat → Node → List (List Nat × Node)
  | p, .text s => [(p, .text s)]
  | p, .elem t a cs => (p, .elem t a cs) :: forestFlat p 0 cs

/-- Pre-order flattening of a forest whose members are children number `i`,
`i+1`, ... of the node at position `p`. -/
def forestFlat : List Nat → Nat → Forest → List (List Nat × Node)
  | _, _, .nil => []
  | p, i, .cons n ns => nodeFlat (p ++ [i]) n ++ forestFlat p (i + 1) ns
end

/-- All nodes of the document with their positions, in document order. -/
def docFlat (doc : Forest) : List (List Nat × Node) := forestFlat [] 0 doc

/-- All elements of the document with their positions, in document order
(the search space of `soup.find` / `soup.find_all` / `soup.select`). -/
def docElems (doc : Forest) : List (List Nat × Node) :=
  (docFlat doc).filter (fun q => isElemNode q.2)

/-- All strings of the document in document order (`soup.strings`). -/
def docStrings (doc : Forest) : List String :=
  (docFlat doc).filterMap (fun q =>
    match q.2 with
    | .text s => some s
    | .elem _ _ _ => none)

/-- BeautifulSoup `soup.stripped_strings`: every string, stripped, skipping
the ones that strip to empty. -/
def docStrippedStrings (doc : Forest) : List String :=
  (docStrings doc).map pyStripStr |>.filter (fun s => s ≠ "")

/-- All strings of a subtree in document order (`tag.strings`). -/
def nodeStrings (n : Node) : List String :=
  (nodeFlat [] n).filterMap (fun q =>
    match q.2 with
    | .text s => some s
    | .elem _ _ _ => none)

/-- BeautifulSoup `tag.stripped_strings`. -/
def strippedStringsOf (n : Node) : List String :=
  (nodeStrings n).map pyStripStr |>.filter (fun s => s ≠ "")

/-- All element descendants of a node, itself excluded, in document order
(the search space of `tag.find_all` / `tag.find`). -/
def descElems (n : Node) : List Node :=
  (((nodeFlat [] n).drop 1).map (fun q => q.2)).filter isElemNode

/-- All nodes of a forest in document order, without positions. -/
def forestNodes (f : Forest) : List Node := (forestFlat [] 0 f).map (fun q => q.2)

/-- BeautifulSoup `tag.get_text(sep, strip=True)`: the subtree's strings,
each stripped, empties skipped, joined with `sep`. -/
def getTextStrip (sep : String) (n : Node) : String :=
  String.intercalate sep (strippedStringsOf n)

/-- Child number `i` of a forest. -/
def forestGet : Forest → Nat → Option Node
  | .nil, _ => none
  | .cons n _, 0 => some n
  | .cons _ ns, i + 1 => forestGet ns i

/-- Node at a position (path of child indices) of the document. -/
def getAtPos : Forest → List Nat → Option Node
  | _, [] => none
  | f, [i] => forestGet f i
  | f, i :: j :: rest =>
    match forestGet f i with
    | some (.elem _ _ cs) => getAtPos cs (j :: rest)
    | _ => none

/-- Positions of the proper ancestors of the node at position `p`, nearest
(longest path) first — the order `tag.find_parent` searches. -/
def ancestorsOf (p : List Nat) : List (List Nat) :=
  (((List.range p.length).map (fun k => p.take k)).filter (fun q => q ≠ [])).reverse

/-- BeautifulSoup `tag.find_parent(names)`: the nearest ancestor whose tag
name is one of `names`. -/
def findParentIn (doc : Forest) (p : List Nat) (names : List String) :
    Option (List Nat × Node) :=
  ((ancestorsOf p).filterMap (fun q =>
    match getAtPos doc q with
    | some e => if names.contains (tagOf e) then some (q, e) else none
    | none => none)).head?

/-- Does this element's `id` attribute equal `v`?  (`soup.find(id=v)`
compares the stored attribute value with the string `v`; a multi-valued
attribute never equals a string.) -/
def hasIdAttr (e : Node) (v : String) : Bool :=
  match (attrsOf e).lookup "id" with
  | some (.str s) => s = v
  | some (.strs _) => false
  | none => false

/-- BeautifulSoup `soup.find(id=v)`: first element in document order whose
`id` attribute is `v`. -/
def findByIdPos (doc : Forest) (v : String) : Option (List Nat × Node) :=
  (docElems doc).find? (fun q => hasIdAttr q.2 v)

/-- All elements strictly after position `p` in document order — the
elements of `tag.next_elements` (descendants of `p` included). -/
def elemsAfter (doc : Forest) (p : List Nat) : List (List Nat × Node) :=
  ((docElems doc).dropWhile (fun q => q.1 ≠ p)).drop 1

/-- BeautifulSoup `tag.find_next(t)`: the first element after `p` in
document order with tag name `t`. -/
def findNextTag (doc : Forest) (p : List Nat) (t : String) : Option Node :=
  ((elemsAfter doc p).find? (fun q => tagOf q.2 = t)).map (fun q => q.2)

/-- Class token list of an element (BeautifulSoup stores the `class`
attribute of an html.parser document as a list of whitespace-split tokens;
a plain string value is matched tokenwise as well). -/
def classListOf (e : Node) : List String :=
  match (attrsOf e).lookup "class" with
  | some (.strs l) => l
  | some (.str s) => splitWsStr s
  | none => []

/-- Code tokens found in one attribute value, as in the attribute loops of
`extract_codes` and `extract_code_expirations`: a string value is split
directly, a string-list value contributes the tokens of each member. -/
def attrValueTokens : AttrValue → List String
  | .str s => collect_code_tokens s
  | .strs l => l.flatMap collect_code_tokens

/-- Code tokens found in all attribute values of one element. -/
def elemAttrTokens (e : Node) : List String :=
  (attrsOf e).flatMap (fun kv => attrValueTokens kv.2)

/-- The `for th in soup.find_all("th") ... break` fallback loop shared by
`extract_expired_codes` and `extract_code_expirations`: the resulting table
is the one of the first header cell that satisfies `pred` and has a `table`
ancestor (a matching cell without a `table` ancestor sets the loop variable
to `None` and the loop continues). -/
def thFallback (doc : Forest) (pred : Node → Bool) : Option Node :=
  (((docElems doc).filter (fun q => tagOf q.2 = "th" && pred q.2)).filterMap
    (fun q => (findParentIn doc q.1 ["table"]).map (fun r => r.2))).head?

/-- The `extract_codes` function of the source: codes found anywhere in the
document's stripped strings plus its attribute values, deduplicated and
sorted (`sorted(candidates)` of the Python `set`). -/
def extract_codes (doc : Forest) : List String :=
  sortedDedupStr
    (((docStrippedStrings doc).flatMap collect_code_tokens) ++
      ((docElems doc).flatMap (fun q => elemAttrTokens q.2)))

/-- Header-cell predicate of the `extract_expired_codes` fallback:
`th.get_text(strip=True).lower().startswith("all expired shift codes")`. -/
def expiredThMatch (e : Node) : Bool :=
  ("all expired shift codes".toList).isPrefixOf (pyLowerStr (getTextStrip "" e)).toList

/-- The `extract_expired_codes` function of the source: locate the expired
section's table by the anchor id (taking the nearest `h2`/`h3` ancestor of
the anchor, or the anchor itself, and the first table after it), or — only
when the anchor is absent — by the header-cell fallback; then collect the
code tokens of the table's stripped strings into a set (represented as a
sorted duplicate-free list). -/
def expiredTableOf (doc : Forest) : Option Node :=
  match findByIdPos doc "All_Expired_SHiFT_Codes_in_Borderlands_4" with
  | some (p, _) =>
    let hp :=
      match findParentIn doc p ["h2", "h3"] with
      | some (q, _) => q
      | none => p
    findNextTag doc hp "table"
  | none => thFallback doc expiredThMatch

/-- Value of the `table` local of `extract_expired_codes` (see
`expiredTableOf`), and the final set construction. -/
def extract_expired_codes (doc : Forest) : List String :=
  match expiredTableOf doc with
  | none => []
  | some t => sortedDedupStr ((strippedStringsOf t).flatMap collect_code_tokens)

/-- Code tokens of one table row in `extract_code_expirations`: the tokens
of `tr.get_text(" ", strip=True)` followed by the tokens of every attribute
value of every descendant element of the row. -/
def rowCodes (tr : Node) : List String :=
  collect_code_tokens (getTextStrip " " tr) ++ (descElems tr).flatMap elemAttrTokens

/-- The `sorted({c.upper() for c in row_codes})` step of
`extract_code_expirations`. -/
def rowCodesSorted (tr : Node) : List String :=
  sortedDedupStr ((rowCodes tr).map pyUpperStr)

/-- Normalization of the detail cell's text in `extract_code_expirations`:
empty stays empty, text containing "no expiration" (case-insensitively)
becomes the canonical "No expiration", text containing "unknown expiration"
passes through unchanged, anything else passes through unchanged. -/
def normalizeDetail (t : String) : String :=
  if t = "" then ""
  else if containsSub "no expiration".toList (pyLowerStr t).toList then "No expiration"
  else if containsSub "unknown expiration".toList (pyLowerStr t).toList then t
  else t

/-- Expiration text taken from the detail row `nxt` in
`extract_code_expirations`: prefer the second `td` cell when the row has at
least two, else the whole row; inside the chosen container prefer the text
of a `simple-event` element when present and nonempty, else the container's
normalized text. -/
def detailText (nxt : Node) : String :=
  let cells := (descElems nxt).filter (fun e => tagOf e = "td")
  let cont :=
    match cells with
    | _ :: c :: _ => c
    | _ => nxt
  match (descElems cont).find? (fun e => (classListOf e).contains "simple-event") with
  | some evt =>
    if getTextStrip "" evt ≠ "" then getTextStrip " " evt
    else normalizeDetail (getTextStrip " " cont)
  | none => normalizeDetail (getTextStrip " " cont)

/-- Python `mapping[code] = expiration`: overwrite in place when the key is
present, else append (preserving a Python dict's insertion order). -/
def dictInsert (m : List (String × String)) (k v : String) : List (String × String) :=
  if m.any (fun kv => kv.1 = k) then
    m.map (fun kv => if kv.1 = k then (k, v) else kv)
  else m ++ [(k, v)]

/-- Records the same expiration string for every code of a row, as the
`for code in row_codes: mapping[code] = expiration` loop does. -/
def dictInsertAll (m : List (String × String)) (ks : List String) (v : String) :
    List (String × String) :=
  ks.foldl (fun acc k => dictInsert acc k v) m

/-- The cursor loop of `extract_code_expirations` over the table's rows:
a row with codes takes the next row as its detail row (expiration text
empty when there is no next row) and the cursor advances by two; a row
without codes advances the cursor by one. -/
def pairRows : List Node → List (String × String) → List (String × String)
  | [], m => m
  | tr :: rest, m =>
    if (rowCodesSorted tr).isEmpty then pairRows rest m
    else
      match rest with
      | [] => dictInsertAll m (rowCodesSorted tr) ""
      | nxt :: rest2 => pairRows rest2 (dictInsertAll m (rowCodesSorted tr) (detailText nxt))

/-- Header-cell predicate of the `extract_code_expirations` fallback:
`"limited-time" in text or "permanent" in text` on the lowered cell text. -/
def activeThMatch (e : Node) : Bool :=
  containsSub "limited-time".toList (pyLowerStr (getTextStrip "" e)).toList ||
    containsSub "permanent".toList (pyLowerStr (getTextStrip "" e)).toList

/-- The rows `table.find_all("tr", recursive=True)` of a table. -/
def rowsOfTable (t : Node) : List Node :=
  (descElems t).filter (fun e => tagOf e = "tr")

/-- The `extract_code_expirations` function of the source: locate the
active section's table by the anchor id, falling back (also when the anchor
is present but no table follows it) to the first header cell mentioning
"limited-time" or "permanent"; then run the row-pairing cursor loop over
the table's rows. -/
def activeTableOf (doc : Forest) : Option Node :=
  let fromAnchor :=
    match findByIdPos doc "All_Active_Borderlands_4_SHiFT_Codes" with
    | some (p, _) =>
      let hp :=
        match findParentIn doc p ["h2", "h3"] with
        | some (q, _) => q
        | none => p
      findNextTag doc hp "table"
    | none => none
  match fromAnchor with
  | some t => some t
  | none => thFallback doc activeThMatch

/-- Value of the `table` local of `extract_code_expirations` (see
`activeTableOf`), and the final pairing loop. -/
def extract_code_expirations (doc : Forest) : List (String × String) :=
  match activeTableOf doc with
  | none => []
  | some t => pairRows (rowsOfTable t) []

/-- Characters allowed inside a CSS identifier (ASCII range, as the
selectors this scraper builds use). -/
def cssIdentChar (c : Char) : Bool :=
  c.isAlpha || c.isDigit || c = '-' || c = '_'

/-- Simplified CSS identifier grammar of the soupsieve selector engine used
by `soup.select` (ASCII range): nonempty, made of letters, digits, `-` and
`_`, not starting with a digit and not starting with `-` followed by
nothing or a digit. -/
def cssIdentOk : List Char → Bool
  | [] => false
  | c :: rest =>
    rest.all cssIdentChar &&
      (c.isAlpha || c = '_' ||
        (c = '-' &&
          match rest with
          | [] => false
          | d :: _ => d.isAlpha || d = '_' || d = '-'))

/-- Python `".".join(parts)`. -/
def joinDots : List (List Char) → List Char
  | [] => []
  | [p] => p
  | p :: ps => p ++ '.' :: joinDots ps

/-- The selector string `try_extract_by_class` builds:
`tag` alone when `class_tokens` is empty (Python falsiness of an empty
sequence), else `tag + "." + ".".join(stripped nonempty tokens)`. -/
def buildSelector (tag : String) (class_tokens : List String) : List Char :=
  if class_tokens.isEmpty then tag.toList
  else
    tag.toList ++ '.' ::
      joinDots ((class_tokens.map (fun t => pyStrip t.toList)).filter (fun l => !l.isEmpty))

/-- Parsing of the compound selector string by `soup.select` (the soupsieve
library), modelled for the `tag.class1.class2...` grammar this scraper can
generate: the string splits on `.` into a type selector followed by class
names, every part being a CSS identifier.  Anything outside this grammar is
treated as a syntactically invalid selector (`none`), which the source
turns into `([], False)` via its `except` clause. -/
def parseCompound (sel : List Char) : Option (String × List String) :=
  match splitOnCh '.' sel with
  | [] => none
  | ty :: classes =>
    if cssIdentOk ty && classes.all cssIdentOk then
      some (String.mk ty, classes.map (fun l => String.mk l))
    else none

/-- The elements `soup.select(selector)` returns for a valid compound
selector, in document order: tag name equal to the type selector and every
class name among the element's class tokens. -/
def selectElems (doc : Forest) (ty : String) (classes : List String) : List Node :=
  ((docElems doc).map (fun q => q.2)).filter
    (fun e => tagOf e = ty && classes.all (fun c => (classListOf e).contains c))

/-- The `try_extract_by_class` function of the source: build the compound
selector; an invalid selector or a selector matching no element gives
`([], false)`; otherwise collect the code tokens of every matched element's
text into a sorted duplicate-free list and report `true`. -/
def try_extract_by_class (doc : Forest) (tag : String) (class_tokens : List String) :
    List String × Bool :=
  match parseCompound (buildSelector tag class_tokens) with
  | none => ([], false)
  | some (ty, classes) =>
    let elements := selectElems doc ty classes
    if elements.isEmpty then ([], false)
    else
      (sortedDedupStr (elements.flatMap (fun e => collect_code_tokens (getTextStrip " " e))),
        true)

/-- The expired-code filtering step of `main`:
`scraped = [c for c in scraped if c not in expired]`. -/
def filterExpired (scraped : List String) (expired : List String) : List String :=
  scraped.filter (fun c => !expired.contains c)

/-! Small concrete documents used to instantiate the theorems below. -/

/-- A plain document with no section anchors, headers or codes. -/
def docPlain : Forest :=
  ofList [Node.elem "p" [] (ofList [Node.text "hello world"]),
    Node.elem "div" [("class", AttrValue.strs ["content"])] (ofList [Node.text "nothing"])]

/-- A document containing one code twice, in two different casings. -/
def docMixedCase : Forest :=
  ofList [Node.elem "p" []
    (ofList [Node.text "get aaaaa-bbbbb-ccccc-11111-22222 or AAAAA-BBBBB-CCCCC-11111-22222 now"])]

/-- The active-codes document of the specification's Active-Table Pairer
test case: row 1 text "SHIFT-CODE: ABCDE-12345-ABCDE-12345-ABCDE", row 2
cells "Golden Key x3" and "No Expiration". -/
def docActiveTable : Forest :=
  ofList
    [Node.elem "h2" [("id", AttrValue.str "All_Active_Borderlands_4_SHiFT_Codes")] Forest.nil,
     Node.elem "table" [] (ofList
       [Node.elem "tr" [] (ofList
         [Node.elem "td" [] (ofList [Node.text "SHIFT-CODE: ABCDE-12345-ABCDE-12345-ABCDE"])]),
        Node.elem "tr" [] (ofList
          [Node.elem "td" [] (ofList [Node.text "Golden Key x3"]),
           Node.elem "td" [] (ofList [Node.text "No Expiration"])])])]

/-- A document with one `span` carrying the default class tokens but no
valid code in its text. -/
def docSpanNoCode : Forest :=
  ofList [Node.elem "span" [("class", AttrValue.strs ["task-name", "bold", "small"])]
    (ofList [Node.text "no codes in here"])]

/-- An active-section document whose table consists of exactly the rows
`R1` and `R2`. -/
def activePairDoc (R1 R2 : Node) : Forest :=
  ofList
    [Node.elem "h2" [("id", AttrValue.str "All_Active_Borderlands_4_SHiFT_Codes")] Forest.nil,
     Node.elem "table" [] (ofList [R1, R2])]

/-- Children of the first code row used to instantiate the
consecutive-code-rows theorem. -/
def c9row1Children : Forest :=
  ofList [Node.elem "td" [] (ofList [Node.text "AAAAA-BBBBB-CCCCC-DDDDD-EEEEE"])]

/-- Children of the second code row used to instantiate the
consecutive-code-rows theorem: a code cell and a detail cell. -/
def c9row2Children : Forest :=
  ofList [Node.elem "td" [] (ofList [Node.text "FFFFF-GGGGG-HHHHH-IIIII-JJJJJ"]),
    Node.elem "td" [] (ofList [Node.text "Expires soon"])]

/-! Lemmas about the ordering and the sorted-set representation. -/

theorem ltCharsB_iff : ∀ as bs : List Char, ltCharsB as bs = true ↔ List.Lex (· < ·) as bs := by
  intro as
  induction as with
  | nil =>
    intro bs
    cases bs with
    | nil =>
      refine iff_of_false (by simp [ltCharsB]) (List.Lex.not_nil_right _ _)
    | cons b bs =>
      exact iff_of_true rfl List.Lex.nil
  | cons a as ih =>
    intro bs
    cases bs with
    | nil =>
      refine iff_of_false (by simp [ltCharsB]) (List.Lex.not_nil_right _ _)
    | cons b bs =>
      show (if a < b then true else if b < a then false else ltCharsB as bs) = true ↔ _
      by_cases hab : a < b
      · rw [if_pos hab]
        exact iff_of_true rfl (List.Lex.rel hab)
      · rw [if_neg hab]
        by_cases hba : b < a
        · rw [if_pos hba]
          refine iff_of_false (by simp) fun h => ?_
          cases h with
          | cons h' => exact absurd hba (lt_irrefl _)
          | rel h' => exact hab h'
        · rw [if_neg hba]
          have hEq : a = b := le_antisymm (le_of_not_lt hba) (le_of_not_lt hab)
          subst hEq
          rw [ih bs]
          constructor
          · exact fun h => List.Lex.cons h
          · intro h
            cases h with
            | cons h' => exact h'
            | rel h' => exact absurd h' (lt_irrefl _)

theorem strLtB_iff {s t : String} : strLtB s t = true ↔ s < t := by
  rw [String.lt_iff_toList_lt]
  exact ltCharsB_iff s.toList t.toList

theorem mem_insertSortedU {x s : String} :
    ∀ {l : List String}, x ∈ insertSortedU s l ↔ x = s ∨ x ∈ l := by
  intro l
  induction l with
  | nil => simp [insertSortedU]
  | cons t ts ih =>
    show x ∈ (if s = t then t :: ts else if strLtB s t then s :: t :: ts
      else t :: insertSortedU s ts) ↔ _
    by_cases h1 : s = t
    · subst h1
      rw [if_pos rfl]
      simp only [List.mem_cons]
      tauto
    · rw [if_neg h1]
      by_cases h2 : strLtB s t
      · rw [if_pos h2]
        simp [List.mem_cons]
      · rw [if_neg h2]
        simp only [List.mem_cons, ih]
        tauto

theorem sorted_insertSortedU {s : String} :
    ∀ {l : List String}, l.Sorted (· < ·) → (insertSortedU s l).Sorted (· < ·) := by
  intro l
  induction l with
  | nil => intro _; simp [insertSortedU]
  | cons t ts ih =>
    intro hs
    rw [List.sorted_cons] at hs
    show List.Sorted _ (if s = t then t :: ts else if strLtB s t then s :: t :: ts
      else t :: insertSortedU s ts)
    by_cases h1 : s = t
    · subst h1
      rw [if_pos rfl, List.sorted_cons]
      exact hs
    · rw [if_neg h1]
      by_cases h2 : strLtB s t
      · rw [if_pos h2, List.sorted_cons]
        have hst : s < t := strLtB_iff.mp h2
        refine ⟨?_, List.sorted_cons.mpr hs⟩
        intro b hb
        rcases List.mem_cons.mp hb with hb | hb
        · exact hb ▸ hst
        · exact lt_trans hst (hs.1 b hb)
      · rw [if_neg h2, List.sorted_cons]
        have hts : t < s := by
          rcases lt_trichotomy s t with h | h | h
          · exact absurd (strLtB_iff.mpr h) h2
          · exact absurd h h1
          · exact h
        refine ⟨?_, ih hs.2⟩
        intro b hb
        rcases mem_insertSortedU.mp hb with hb | hb
        · exact hb ▸ hts
        · exact hs.1 b hb

theorem sorted_foldl_insert :
    ∀ (l : List String) (acc : List String), acc.Sorted (· < ·) →
      (l.foldl (fun a s => insertSortedU s a) acc).Sorted (· < ·) := by
  intro l
  induction l with
  | nil => exact fun acc h => h
  | cons s l ih => exact fun acc h => ih _ (sorted_insertSortedU h)

theorem mem_foldl_insert {x : String} :
    ∀ (l : List String) (acc : List String),
      x ∈ l.foldl (fun a s => insertSortedU s a) acc ↔ x ∈ l ∨ x ∈ acc := by
  intro l
  induction l with
  | nil => simp
  | cons s l ih =>
    intro acc
    rw [List.foldl_cons, ih, mem_insertSortedU, List.mem_cons]
    tauto

theorem sorted_sortedDedupStr (l : List String) : (sortedDedupStr l).Sorted (· < ·) :=
  sorted_foldl_insert l [] (by simp)

theorem mem_sortedDedupStr {x : String} {l : List String} :
    x ∈ sortedDedupStr l ↔ x ∈ l := by
  rw [sortedDedupStr, mem_foldl_insert]
  simp

theorem nodup_sortedDedupStr (l : List String) : (sortedDedupStr l).Nodup :=
  (sorted_sortedDedupStr l).nodup

/-! Lemmas about the splitter and the tokenizer. -/

theorem mem_consHead_cases {c : Char} {r : List (List Char)} {p : List Char}
    (hp : p ∈ consHead c r) :
    (r = [] ∧ p = [c]) ∨ ∃ q qs, r = q :: qs ∧ (p = c :: q ∨ p ∈ qs) := by
  cases r with
  | nil =>
    left
    refine ⟨rfl, ?_⟩
    simpa [consHead] using hp
  | cons q qs =>
    right
    refine ⟨q, qs, rfl, ?_⟩
    simpa [consHead] using hp

theorem splitKeep_chars {keep : Char → Bool} :
    ∀ l : List Char, ∀ p ∈ splitKeep keep l, ∀ c ∈ p, keep c = true ∧ c ∈ l := by
  intro l
  induction l with
  | nil =>
    intro p hp c hc
    simp [splitKeep] at hp
    subst hp
    simp at hc
  | cons a rest ih =>
    intro p hp c hc
    by_cases ha : keep a
    · rw [show splitKeep keep (a :: rest) = consHead a (splitKeep keep rest) by
        simp [splitKeep, ha]] at hp
      rcases mem_consHead_cases hp with ⟨_, hpc⟩ | ⟨q, qs, hr, hq⟩
      · subst hpc
        simp at hc
        subst hc
        exact ⟨ha, by simp⟩
      · rcases hq with hq | hq
        · subst hq
          rcases List.mem_cons.mp hc with hc | hc
          · subst hc
            exact ⟨ha, by simp⟩
          · have := ih q (by rw [hr]; simp) c hc
            exact ⟨this.1, by simp [this.2]⟩
        · have := ih p (by rw [hr]; simp [hq]) c hc
          exact ⟨this.1, by simp [this.2]⟩
    · cases rest with
      | nil =>
        rw [show splitKeep keep [a] = [[], ([] : List Char)] by simp [splitKeep, ha]] at hp
        have hpe : p = [] := by
          rcases List.mem_cons.mp hp with h | h
          · exact h
          · simpa using h
        subst hpe
        simp at hc
      | cons d rest' =>
        by_cases hd : keep d
        · rw [show splitKeep keep (a :: d :: rest') = [] :: splitKeep keep (d :: rest') by
            simp [splitKeep, ha, hd]] at hp
          rcases List.mem_cons.mp hp with hp | hp
          · subst hp; simp at hc
          · have := ih p hp c hc
            exact ⟨this.1, by simp [this.2]⟩
        · rw [show splitKeep keep (a :: d :: rest') = splitKeep keep (d :: rest') by
            simp [splitKeep, ha, hd]] at hp
          have := ih p hp c hc
          exact ⟨this.1, by simp [this.2]⟩

theorem word_not_space {c : Char} (h : isWordChar c = true) : isPySpace c = false := by
  by_contra hc
  rw [Bool.not_eq_false] at hc
  unfold isPySpace at hc
  simp only [Bool.or_eq_true, decide_eq_true_eq, or_assoc] at hc
  rcases hc with h' | h' | h' | h' | h' | h' <;> subst h' <;> exact absurd h (by decide)

/-- Case analysis on `pyUpperChar`: it either leaves the character
unchanged or returns an uppercase letter. -/
theorem pyUpperChar_spec (c : Char) :
    pyUpperChar c = c ∨ ('A' ≤ pyUpperChar c ∧ pyUpperChar c ≤ 'Z') := by
  by_cases e1 : c = 'a'
  · subst e1; right; decide
  by_cases e2 : c = 'b'
  · subst e2; right; decide
  by_cases e3 : c = 'c'
  · subst e3; right; decide
  by_cases e4 : c = 'd'
  · subst e4; right; decide
  by_cases e5 : c = 'e'
  · subst e5; right; decide
  by_cases e6 : c = 'f'
  · subst e6; right; decide
  by_cases e7 : c = 'g'
  · subst e7; right; decide
  by_cases e8 : c = 'h'
  · subst e8; right; decide
  by_cases e9 : c = 'i'
  · subst e9; right; decide
  by_cases e10 : c = 'j'
  · subst e10; right; decide
  by_cases e11 : c = 'k'
  · subst e11; right; decide
  by_cases e12 : c = 'l'
  · subst e12; right; decide
  by_cases e13 : c = 'm'
  · subst e13; right; decide
  by_cases e14 : c = 'n'
  · subst e14; right; decide
  by_cases e15 : c = 'o'
  · subst e15; right; decide
  by_cases e16 : c = 'p'
  · subst e16; right; decide
  by_cases e17 : c = 'q'
  · subst e17; right; decide
  by_cases e18 : c = 'r'
  · subst e18; right; decide
  by_cases e19 : c = 's'
  · subst e19; right; decide
  by_cases e20 : c = 't'
  · subst e20; right; decide
  by_cases e21 : c = 'u'
  · subst e21; right; decide
  by_cases e22 : c = 'v'
  · subst e22; right; decide
  by_cases e23 : c = 'w'
  · subst e23; right; decide
  by_cases e24 : c = 'x'
  · subst e24; right; decide
  by_cases e25 : c = 'y'
  · subst e25; right; decide
  by_cases e26 : c = 'z'
  · subst e26; right; decide
  left
  unfold pyUpperChar
  rw [if_neg e1, if_neg e2, if_neg e3, if_neg e4, if_neg e5, if_neg e6, if_neg e7, if_neg e8, if_neg e9, if_neg e10, if_neg e11, if_neg e12, if_neg e13, if_neg e14, if_neg e15, if_neg e16, if_neg e17, if_neg e18, if_neg e19, if_neg e20, if_neg e21, if_neg e22, if_neg e23, if_neg e24, if_neg e25, if_neg e26]

theorem pyUpperChar_eq_self_of_not_lower {c : Char} (h : ¬('a' ≤ c ∧ c ≤ 'z')) :
    pyUpperChar c = c := by
  have ne : ∀ d : Char, 'a' ≤ d ∧ d ≤ 'z' → c ≠ d :=
    fun d hd e => h (by rw [e]; exact hd)
  unfold pyUpperChar
  rw [if_neg (ne 'a' (by decide)), if_neg (ne 'b' (by decide)), if_neg (ne 'c' (by decide)), if_neg (ne 'd' (by decide)), if_neg (ne 'e' (by decide)), if_neg (ne 'f' (by decide)), if_neg (ne 'g' (by decide)), if_neg (ne 'h' (by decide)), if_neg (ne 'i' (by decide)), if_neg (ne 'j' (by decide)), if_neg (ne 'k' (by decide)), if_neg (ne 'l' (by decide)), if_neg (ne 'm' (by decide)), if_neg (ne 'n' (by decide)), if_neg (ne 'o' (by decide)), if_neg (ne 'p' (by decide)), if_neg (ne 'q' (by decide)), if_neg (ne 'r' (by decide)), if_neg (ne 's' (by decide)), if_neg (ne 't' (by decide)), if_neg (ne 'u' (by decide)), if_neg (ne 'v' (by decide)), if_neg (ne 'w' (by decide)), if_neg (ne 'x' (by decide)), if_neg (ne 'y' (by decide)), if_neg (ne 'z' (by decide))]

theorem pyUpperChar_word {c : Char} (h : isWordChar c = true) :
    isWordChar (pyUpperChar c) = true := by
  rcases pyUpperChar_spec c with hs | ⟨h1, h2⟩
  · rw [hs]; exact h
  · unfold isWordChar
    simp [h1, h2]

theorem dropWhile_eq_self_of_all {p : Char → Bool} :
    ∀ {l : List Char}, (∀ c ∈ l, p c = false) → l.dropWhile p = l := by
  intro l
  cases l with
  | nil => intro _; rfl
  | cons a l =>
    intro h
    rw [List.dropWhile_cons, h a (by simp)]
    simp

theorem pyStrip_eq_self_of_no_space {l : List Char}
    (h : ∀ c ∈ l, isPySpace c = false) : pyStrip l = l := by
  unfold pyStrip
  rw [dropWhile_eq_self_of_all h, dropWhile_eq_self_of_all (by
    intro c hc
    exact h c (by simpa using hc)), List.reverse_reverse]

theorem isFullCodeMatch_ne_nil {l : List Char} (h : isFullCodeMatch l = true) : l ≠ [] := by
  intro he
  subst he
  exact absurd h (by decide)

/-- Every token the tokenizer keeps is a full `CODE_REGEX` match: the kept
pieces consist of `[A-Za-z0-9-]` characters only, so the trailing-newline
allowance of Python's `$` can never be the reason `CODE_REGEX.match`
accepted them. -/
theorem mem_collect_isFull {s t : String} (ht : t ∈ collect_code_tokens s) :
    isFullCodeMatchStr t = true := by
  rw [collect_code_tokens, List.mem_map] at ht
  obtain ⟨tl, htl, hmk⟩ := ht
  rw [collectTokensL, List.mem_filter] at htl
  obtain ⟨hmem, hpred⟩ := htl
  rw [List.mem_map] at hmem
  obtain ⟨p, hp, hfp⟩ := hmem
  rw [Bool.and_eq_true] at hpred
  obtain ⟨hne, hmatch⟩ := hpred
  have hmemStrip : ∀ c ∈ pyStrip p, c ∈ p := by
    intro c hc
    unfold pyStrip at hc
    rw [List.mem_reverse] at hc
    have hc2 := (List.dropWhile_sublist isPySpace).mem hc
    rw [List.mem_reverse] at hc2
    exact (List.dropWhile_sublist isPySpace).mem hc2
  have hword : ∀ c ∈ tl, isWordChar c = true := by
    intro c hc
    rw [← hfp, List.mem_map] at hc
    obtain ⟨c0, hc0, hup⟩ := hc
    have hw0 : isWordChar c0 = true :=
      (splitKeep_chars s.toList p hp c0 (hmemStrip c0 hc0)).1
    exact hup ▸ pyUpperChar_word hw0
  have htlne : tl ≠ [] := by
    intro he
    rw [he] at hne
    exact absurd hne (by decide)
  have hfull : isFullCodeMatch tl = true := by
    rw [codeRegexMatch, List.getLast?_eq_getLast tl htlne] at hmatch
    have hlastw : isWordChar (tl.getLast htlne) = true :=
      hword _ (List.getLast_mem htlne)
    have hlastne : (tl.getLast htlne = '\n') = False := by
      refine eq_false fun he => ?_
      rw [he] at hlastw
      exact absurd hlastw (by decide)
    rw [Bool.or_eq_true] at hmatch
    rcases hmatch with h | h
    · exact h
    · rw [Bool.and_eq_true, decide_eq_true_eq, hlastne] at h
      exact absurd h.1 id
  rw [← hmk]
  exact hfull

/-- An input consisting only of non-`[A-Za-z0-9-]` characters (in particular
the empty input) yields no tokens. -/
theorem collect_allSep {s : String} (h : ∀ c ∈ s.toList, isWordChar c = false) :
    collect_code_tokens s = [] := by
  have hL : collectTokensL s.toList = [] := by
    rw [collectTokensL, List.filter_eq_nil_iff]
    intro t ht
    rw [List.mem_map] at ht
    obtain ⟨p, hp, hfp⟩ := ht
    have hpe : p = [] := by
      cases p with
      | nil => rfl
      | cons c cs =>
        have h1 := (splitKeep_chars s.toList _ hp c (by simp)).1
        have h2 := h c (splitKeep_chars s.toList _ hp c (by simp)).2
        rw [h1] at h2
        cases h2
    subst hpe
    rw [← hfp]
    decide
  rw [collect_code_tokens, hL]
  rfl

/-! Character-set facts used to show that uppercasing an already-extracted
code leaves it unchanged. -/

theorem splitOnCh_chars {ch : Char} :
    ∀ l : List Char, ∀ c ∈ l, (∃ p ∈ splitOnCh ch l, c ∈ p) ∨ c = ch := by
  intro l
  induction l with
  | nil => intro c hc; simp at hc
  | cons a rest ih =>
    intro c hc
    by_cases ha : a = ch
    · subst ha
      rcases List.mem_cons.mp hc with hc | hc
      · right; exact hc
      · rcases ih c hc with ⟨p, hp, hcp⟩ | hc2
        · left
          refine ⟨p, ?_, hcp⟩
          rw [show splitOnCh a (a :: rest) = [] :: splitOnCh a rest by simp [splitOnCh]]
          simp [hp]
        · right; exact hc2
    · rw [show splitOnCh ch (a :: rest) = consHead a (splitOnCh ch rest) by
        simp [splitOnCh, ha]]
      rcases List.mem_cons.mp hc with hc | hc
      · subst hc
        left
        cases hr : splitOnCh ch rest with
        | nil => exact ⟨[c], by simp [consHead], by simp⟩
        | cons q qs => exact ⟨c :: q, by simp [consHead], by simp⟩
      · rcases ih c hc with ⟨p, hp, hcp⟩ | hc2
        · left
          cases hr : splitOnCh ch rest with
          | nil => rw [hr] at hp; simp at hp
          | cons q qs =>
            rw [hr] at hp
            rcases List.mem_cons.mp hp with hp | hp
            · subst hp
              exact ⟨a :: p, by simp [consHead], by simp [hcp]⟩
            · exact ⟨p, by simp [consHead, hp], hcp⟩
        · right; exact hc2

theorem isFullCodeMatch_chars {l : List Char} (h : isFullCodeMatch l = true) :
    ∀ c ∈ l, isCodeChar c = true ∨ c = '-' := by
  intro c hc
  rcases splitOnCh_chars l c hc with ⟨p, hp, hcp⟩ | hc2
  · left
    rw [isFullCodeMatch, Bool.and_eq_true, List.all_eq_true] at h
    have hg := h.2 p hp
    rw [isCodeGroup, Bool.and_eq_true, List.all_eq_true] at hg
    exact hg.2 c hcp
  · right; exact hc2

theorem pyUpperChar_id_code {c : Char} (h : isCodeChar c = true ∨ c = '-') :
    pyUpperChar c = c := by
  apply pyUpperChar_eq_self_of_not_lower
  rintro ⟨h1, h2⟩
  rcases h with h | h
  · rw [isCodeChar, Bool.or_eq_true, Bool.and_eq_true, Bool.and_eq_true] at h
    simp only [decide_eq_true_eq] at h
    rcases h with ⟨_, hb⟩ | ⟨_, hb⟩
    · exact absurd (le_trans h1 hb) (by decide)
    · exact absurd (le_trans h1 hb) (by decide)
  · subst h
    exact absurd h1 (by decide)

theorem pyUpperStr_id_of_code {t : String} (h : isFullCodeMatchStr t = true) :
    pyUpperStr t = t := by
  rw [pyUpperStr,
    List.map_congr_left fun c hc => pyUpperChar_id_code (isFullCodeMatch_chars h c hc)]
  simp

/-! Lemmas about the dictionary representation. -/

theorem dictInsert_fst {m : List (String × String)} {k v : String} {kv : String × String}
    (h : kv ∈ dictInsert m k v) : kv.1 = k ∨ kv ∈ m := by
  rw [dictInsert] at h
  split at h
  · rw [List.mem_map] at h
    obtain ⟨kv0, hkv0, heq⟩ := h
    by_cases he : kv0.1 = k
    · rw [if_pos he] at heq
      left
      rw [← heq]
    · rw [if_neg he] at heq
      right
      rw [← heq]
      exact hkv0
  · rw [List.mem_append] at h
    rcases h with h | h
    · right; exact h
    · left
      simp only [List.mem_singleton] at h
      rw [h]

theorem dictInsertAll_fst {ks : List String} :
    ∀ {m : List (String × String)} {v : String} {kv : String × String},
      kv ∈ dictInsertAll m ks v → kv.1 ∈ ks ∨ kv ∈ m := by
  induction ks with
  | nil => intro m v kv h; right; exact h
  | cons k ks ih =>
    intro m v kv h
    rcases ih h with h | h
    · left; simp [h]
    · rcases dictInsert_fst h with h | h
      · left; simp [h]
      · right; exact h

theorem dictInsert_fresh {m : List (String × String)} {k v : String}
    (h : ∀ kv ∈ m, kv.1 ≠ k) : dictInsert m k v = m ++ [(k, v)] := by
  have hany : m.any (fun kv => kv.1 = k) = false := by
    rw [List.any_eq_false]
    intro kv hkv
    simp [h kv hkv]
  rw [dictInsert, hany]
  simp

theorem dictInsertAll_fresh {v : String} :
    ∀ (ks : List String) (m : List (String × String)), ks.Nodup →
      (∀ k ∈ ks, ∀ kv ∈ m, kv.1 ≠ k) →
      dictInsertAll m ks v = m ++ ks.map (fun k => (k, v)) := by
  intro ks
  induction ks with
  | nil => intro m _ _; simp [dictInsertAll]
  | cons k ks ih =>
    intro m hnd hfresh
    have hkm : ∀ kv ∈ m, kv.1 ≠ k := hfresh k (by simp)
    have step : dictInsertAll m (k :: ks) v = dictInsertAll (dictInsert m k v) ks v := rfl
    rw [step, ih (dictInsert m k v) (List.nodup_cons.mp hnd).2]
    · rw [dictInsert_fresh hkm, List.append_assoc]
      rfl
    · intro k' hk' kv hkv
      rw [dictInsert_fresh hkm, List.mem_append] at hkv
      rcases hkv with hkv | hkv
      · exact hfresh k' (by simp [hk']) kv hkv
      · simp only [List.mem_singleton] at hkv
        rw [hkv]
        intro he
        rw [← he] at hk'
        exact (List.nodup_cons.mp hnd).1 hk'

theorem lookup_map_const {v : String} :
    ∀ (ks : List String) (c : String),
      (ks.map (fun k => (k, v))).lookup c = if c ∈ ks then some v else none := by
  intro ks
  induction ks with
  | nil => intro c; simp
  | cons k ks ih =>
    intro c
    by_cases hc : c = k
    · subst hc
      simp [List.lookup_cons]
    · rw [List.map_cons, List.lookup_cons, ih]
      have : (c == k) = false := by simp [hc]
      rw [this]
      simp [hc]

/-! Wellformedness of the code lists the extraction functions build. -/

theorem mem_attrValueTokens_isFull {av : AttrValue} {t : String}
    (h : t ∈ attrValueTokens av) : isFullCodeMatchStr t = true := by
  cases av with
  | str s => exact mem_collect_isFull h
  | strs l =>
    rw [attrValueTokens, List.mem_flatMap] at h
    obtain ⟨s, _, hts⟩ := h
    exact mem_collect_isFull hts

theorem mem_rowCodes_isFull {tr : Node} {t : String} (h : t ∈ rowCodes tr) :
    isFullCodeMatchStr t = true := by
  rw [rowCodes, List.mem_append] at h
  rcases h with h | h
  · exact mem_collect_isFull h
  · rw [List.mem_flatMap] at h
    obtain ⟨e, _, hte⟩ := h
    rw [elemAttrTokens, List.mem_flatMap] at hte
    obtain ⟨kv, _, htkv⟩ := hte
    exact mem_attrValueTokens_isFull htkv

theorem mem_rowCodesSorted_isFull {tr : Node} {k : String} (h : k ∈ rowCodesSorted tr) :
    isFullCodeMatchStr k = true := by
  rw [rowCodesSorted, mem_sortedDedupStr, List.mem_map] at h
  obtain ⟨t, ht, hk⟩ := h
  have hf := mem_rowCodes_isFull ht
  rw [← hk, pyUpperStr_id_of_code hf]
  exact hf

theorem pairRows_cons (tr : Node) (rest : List Node) (m : List (String × String)) :
    pairRows (tr :: rest) m =
      if (rowCodesSorted tr).isEmpty then pairRows rest m
      else
        match rest with
        | [] => dictInsertAll m (rowCodesSorted tr) ""
        | nxt :: rest2 => pairRows rest2 (dictInsertAll m (rowCodesSorted tr) (detailText nxt)) := by
  cases rest <;> rfl

theorem pairRows_keys_aux :
    ∀ (n : Nat) (trs : List Node) (m : List (String × String)), trs.length ≤ n →
      (∀ kv ∈ m, isFullCodeMatchStr kv.1 = true) →
      ∀ kv ∈ pairRows trs m, isFullCodeMatchStr kv.1 = true := by
  intro n
  induction n with
  | zero =>
    intro trs m hlen hm kv hkv
    have he : trs = [] := List.eq_nil_of_length_eq_zero (Nat.le_zero.mp hlen)
    subst he
    exact hm kv hkv
  | succ n ih =>
    intro trs m hlen hm kv hkv
    cases trs with
    | nil => exact hm kv hkv
    | cons tr rest =>
      rw [pairRows_cons] at hkv
      by_cases hrc : (rowCodesSorted tr).isEmpty
      · rw [if_pos hrc] at hkv
        refine ih rest m ?_ hm kv hkv
        rw [List.length_cons] at hlen
        omega
      · rw [if_neg hrc] at hkv
        cases rest with
        | nil =>
          rcases dictInsertAll_fst hkv with h | h
          · exact mem_rowCodesSorted_isFull h
          · exact hm kv h
        | cons nxt rest2 =>
          refine ih rest2 _ ?_ ?_ kv hkv
          · simp only [List.length_cons] at hlen ⊢
            omega
          · intro kv2 hkv2
            rcases dictInsertAll_fst hkv2 with h | h
            · exact mem_rowCodesSorted_isFull h
            · exact hm kv2 h

/-- Case split on the result shape of `try_extract_by_class`: the code list
is either empty or a sorted deduplication of tokens collected from element
texts. -/
theorem try_extract_fst_cases (doc : Forest) (tag : String) (toks : List String) :
    (try_extract_by_class doc tag toks).1 = [] ∨
      ∃ elems : List Node, (try_extract_by_class doc tag toks).1 =
        sortedDedupStr (elems.flatMap fun e => collect_code_tokens (getTextStrip " " e)) := by
  rcases hp : parseCompound (buildSelector tag toks) with _ | ⟨ty, classes⟩
  · left
    rw [try_extract_by_class, hp]
  · by_cases he : (selectElems doc ty classes).isEmpty
    · left
      simp only [try_extract_by_class, hp]
      rw [if_pos he]
    · right
      refine ⟨selectElems doc ty classes, ?_⟩
      simp only [try_extract_by_class, hp]
      rw [if_neg he]

/-! Claim theorems. -/

/-- Claim C1 — Tokenizer soundness: for every input string, every token the
tokenizer produces fully matches the five-groups-of-five pattern, and an
input that is empty or consists only of non-token (punctuation/whitespace)
characters yields the empty token sequence. -/
theorem C1_tokenizer_sound (s : String) :
    (∀ t ∈ collect_code_tokens s, isFullCodeMatchStr t = true) ∧
      ((∀ c ∈ s.toList, isWordChar c = false) → collect_code_tokens s = []) :=
  ⟨fun _ ht => mem_collect_isFull ht, collect_allSep⟩

theorem C1_tokenizer_sound_witness :
    isFullCodeMatchStr "ABCDE-12345-ABCDE-12345-ABCDE" = true ∧
      collect_code_tokens "" = [] ∧ collect_code_tokens "!?!? ... ()" = [] :=
  ⟨(C1_tokenizer_sound "go abcde-12345-ABCDE-12345-abcde now").1
      "ABCDE-12345-ABCDE-12345-ABCDE" (by decide),
    (C1_tokenizer_sound "").2 (by decide),
    (C1_tokenizer_sound "!?!? ... ()").2 (by decide)⟩

/-- Claim C2 — Active-Table Pairer test case: on the document whose active
table has first row text "SHIFT-CODE: ABCDE-12345-ABCDE-12345-ABCDE" and a
second row with cells "Golden Key x3" and "No Expiration",
`extract_code_expirations` returns exactly the mapping sending
"ABCDE-12345-ABCDE-12345-ABCDE" to the canonical "No expiration" (second
cell preferred, case-insensitive normalization). -/
theorem C2_active_table_pairer_example :
    extract_code_expirations docActiveTable =
      [("ABCDE-12345-ABCDE-12345-ABCDE", "No expiration")] := by decide

/-- Claim C4 — Case-insensitive extraction, exactly once: if the uppercased
form of a character sequence `c` is a valid code and `c` occurs as a
delimiter-separated token of some text chunk of the document (in any
casing, possibly among further occurrences in other casings), then the
Document Scanner's output contains the uppercased code exactly once. -/
theorem C4_case_insensitive_exactly_once (doc : Forest) (c : List Char)
    (hcode : isFullCodeMatch (c.map pyUpperChar) = true)
    (hocc : ∃ s ∈ docStrippedStrings doc, c ∈ splitKeep isWordChar s.toList) :
    (extract_codes doc).count (String.mk (c.map pyUpperChar)) = 1 := by
  obtain ⟨s, hs, hc⟩ := hocc
  have hword : ∀ x ∈ c, isWordChar x = true :=
    fun x hx => (splitKeep_chars s.toList c hc x hx).1
  have hstrip : pyStrip c = c :=
    pyStrip_eq_self_of_no_space fun x hx => word_not_space (hword x hx)
  have htok : String.mk (c.map pyUpperChar) ∈ collect_code_tokens s := by
    rw [collect_code_tokens, List.mem_map]
    refine ⟨c.map pyUpperChar, ?_, rfl⟩
    rw [collectTokensL, List.mem_filter]
    constructor
    · rw [List.mem_map]
      exact ⟨c, hc, by rw [hstrip]⟩
    · rw [Bool.and_eq_true]
      constructor
      · rw [Bool.not_eq_true', List.isEmpty_eq_false]
        exact isFullCodeMatch_ne_nil hcode
      · rw [codeRegexMatch, Bool.or_eq_true]
        left
        exact hcode
  have hmem : String.mk (c.map pyUpperChar) ∈ extract_codes doc := by
    rw [extract_codes, mem_sortedDedupStr, List.mem_append]
    left
    rw [List.mem_flatMap]
    exact ⟨s, hs, htok⟩
  exact List.count_eq_one_of_mem (nodup_sortedDedupStr _) hmem

theorem C4_case_insensitive_exactly_once_witness :
    isFullCodeMatch ("aaaaa-bbbbb-ccccc-11111-22222".toList.map pyUpperChar) = true ∧
      (∃ s ∈ docStrippedStrings docMixedCase,
        "aaaaa-bbbbb-ccccc-11111-22222".toList ∈ splitKeep isWordChar s.toList) ∧
      (extract_codes docMixedCase).count
        (String.mk ("aaaaa-bbbbb-ccccc-11111-22222".toList.map pyUpperChar)) = 1 :=
  ⟨by decide, by decide,
    C4_case_insensitive_exactly_once docMixedCase "aaaaa-bbbbb-ccccc-11111-22222".toList
      (by decide) (by decide)⟩

/-- Claim C5 — Document Scanner determinism and ordering: the output of
`extract_codes` is strictly sorted (hence in a stable order), duplicate
free, and a second run on the same unchanged document gives the identical
output. -/
theorem C5_scanner_deterministic (doc doc2 : Forest) (h : doc2 = doc) :
    (extract_codes doc).Sorted (· < ·) ∧ (extract_codes doc).Nodup ∧
      extract_codes doc2 = extract_codes doc :=
  ⟨sorted_sortedDedupStr _, nodup_sortedDedupStr _, by rw [h]⟩

theorem C5_scanner_deterministic_witness :
    (extract_codes docMixedCase).Sorted (· < ·) ∧ (extract_codes docMixedCase).Nodup ∧
      extract_codes docMixedCase = extract_codes docMixedCase :=
  C5_scanner_deterministic docMixedCase docMixedCase rfl

/-- Claim C7 — Invalid selector degrades, never raises: whenever the
selector string built from the tag and class tokens is syntactically
invalid, `try_extract_by_class` returns `([], false)` for every document. -/
theorem C7_invalid_selector_degrades (doc : Forest) (tag : String) (toks : List String)
    (h : parseCompound (buildSelector tag toks) = none) :
    try_extract_by_class doc tag toks = ([], false) := by
  rw [try_extract_by_class, h]

theorem C7_invalid_selector_degrades_witness :
    parseCompound (buildSelector "span" [" "]) = none ∧
      try_extract_by_class docPlain "span" [" "] = ([], false) :=
  ⟨by decide, C7_invalid_selector_degrades docPlain "span" [" "] (by decide)⟩

/-- Claim C8 — Expired filtering is exact set difference: the filtered list
contains exactly the scraped codes outside the expired set, in their
original order (a sublist of the input), and the specification's concrete
instance evaluates as stated. -/
theorem C8_expired_filter_difference (scraped expired : List String) :
    (∀ c, c ∈ filterExpired scraped expired ↔ c ∈ scraped ∧ c ∉ expired) ∧
      (filterExpired scraped expired).Sublist scraped ∧
      filterExpired ["AAAAA-AAAAA-AAAAA-AAAAA-AAAAA", "BBBBB-BBBBB-BBBBB-BBBBB-BBBBB"]
        ["AAAAA-AAAAA-AAAAA-AAAAA-AAAAA"] = ["BBBBB-BBBBB-BBBBB-BBBBB-BBBBB"] := by
  refine ⟨?_, List.filter_sublist _, by decide⟩
  intro c
  rw [filterExpired, List.mem_filter]
  simp

/-- Claim C10 — Output well-formedness invariant: every key of the mapping
returned by `extract_code_expirations`, every member of the set returned by
`extract_expired_codes`, and every string in the code list returned by
`try_extract_by_class` matches the uppercase five-groups-of-five pattern;
the `try_extract_by_class` code list is moreover duplicate-free and
sorted. -/
theorem C10_outputs_wellformed (doc : Forest) (tag : String) (toks : List String) :
    (∀ kv ∈ extract_code_expirations doc, isFullCodeMatchStr kv.1 = true) ∧
      (∀ x ∈ extract_expired_codes doc, isFullCodeMatchStr x = true) ∧
      (∀ x ∈ (try_extract_by_class doc tag toks).1, isFullCodeMatchStr x = true) ∧
      (try_extract_by_class doc tag toks).1.Sorted (· < ·) ∧
      (try_extract_by_class doc tag toks).1.Nodup := by
  refine ⟨?_, ?_, ?_, ?_, ?_⟩
  · intro kv hkv
    rw [extract_code_expirations] at hkv
    rcases hta : activeTableOf doc with _ | t
    · rw [hta] at hkv
      simp at hkv
    · rw [hta] at hkv
      exact pairRows_keys_aux (rowsOfTable t).length (rowsOfTable t) [] (le_refl _)
        (by simp) kv hkv
  · intro x hx
    rw [extract_expired_codes] at hx
    rcases hte : expiredTableOf doc with _ | t
    · rw [hte] at hx
      simp at hx
    · rw [hte] at hx
      rw [mem_sortedDedupStr, List.mem_flatMap] at hx
      obtain ⟨s, _, hxs⟩ := hx
      exact mem_collect_isFull hxs
  · intro x hx
    rcases try_extract_fst_cases doc tag toks with h | ⟨elems, h⟩
    · rw [h] at hx
      simp at hx
    · rw [h, mem_sortedDedupStr, List.mem_flatMap] at hx
      obtain ⟨e, _, hxe⟩ := hx
      exact mem_collect_isFull hxe
  · rcases try_extract_fst_cases doc tag toks with h | ⟨elems, h⟩ <;> rw [h]
    · simp
    · exact sorted_sortedDedupStr _
  · rcases try_extract_fst_cases doc tag toks with h | ⟨elems, h⟩ <;> rw [h]
    · simp
    · exact nodup_sortedDedupStr _

/-- Claim C3 — Class-Scoped Extractor flag semantics: for a valid compound
selector, a selector matching no element gives `([], false)`; a selector
matching at least one element none of whose texts contain a valid code
gives `([], true)`; and the boolean is `true` exactly when at least one
element matched. -/
theorem C3_class_scoped_flag (doc : Forest) (tag ty : String) (toks classes : List String)
    (h : parseCompound (buildSelector tag toks) = some (ty, classes)) :
    (selectElems doc ty classes = [] → try_extract_by_class doc tag toks = ([], false)) ∧
      (selectElems doc ty classes ≠ [] →
        (∀ e ∈ selectElems doc ty classes, collect_code_tokens (getTextStrip " " e) = []) →
        try_extract_by_class doc tag toks = ([], true)) ∧
      ((try_extract_by_class doc tag toks).2 = true ↔ selectElems doc ty classes ≠ []) := by
  have hunfold : try_extract_by_class doc tag toks =
      if (selectElems doc ty classes).isEmpty then ([], false)
      else (sortedDedupStr ((selectElems doc ty classes).flatMap
        fun e => collect_code_tokens (getTextStrip " " e)), true) := by
    simp only [try_extract_by_class, h]
  refine ⟨?_, ?_, ?_⟩
  · intro he
    rw [hunfold, if_pos (List.isEmpty_iff.mpr he)]
  · intro hne hnone
    rw [hunfold, if_neg fun hc => hne (List.isEmpty_iff.mp hc)]
    have hnil : sortedDedupStr ((selectElems doc ty classes).flatMap
        fun e => collect_code_tokens (getTextStrip " " e)) = [] := by
      rw [List.eq_nil_iff_forall_not_mem]
      intro x hx
      rw [mem_sortedDedupStr, List.mem_flatMap] at hx
      obtain ⟨e, he2, hxe⟩ := hx
      rw [hnone e he2] at hxe
      simp at hxe
    rw [hnil]
  · by_cases he : (selectElems doc ty classes).isEmpty
    · rw [hunfold, if_pos he]
      exact iff_of_false (by simp) fun hne => hne (List.isEmpty_iff.mp he)
    · rw [hunfold, if_neg he]
      exact iff_of_true rfl fun hc => he (List.isEmpty_iff.mpr hc)

theorem C3_class_scoped_flag_witness :
    try_extract_by_class docPlain "span" ["task-name", "bold", "small"] = ([], false) ∧
      try_extract_by_class docSpanNoCode "span" ["task-name", "bold", "small"] = ([], true) :=
  ⟨(C3_class_scoped_flag docPlain "span" "span" ["task-name", "bold", "small"]
      ["task-name", "bold", "small"] (by decide)).1 rfl,
    (C3_class_scoped_flag docSpanNoCode "span" "span" ["task-name", "bold", "small"]
      ["task-name", "bold", "small"] (by decide)).2.1 (List.cons_ne_nil _ _) (by decide)⟩

/-- Claim C6 — Expired section absent is not an error: when no element of
the document has the expired-section anchor id and no header cell's text
starts (case-insensitively) with "all expired shift codes",
`extract_expired_codes` returns the empty set. -/
theorem C6_expired_absent_empty (doc : Forest)
    (h1 : ∀ q ∈ docElems doc,
      hasIdAttr q.2 "All_Expired_SHiFT_Codes_in_Borderlands_4" = false)
    (h2 : ∀ q ∈ docElems doc, tagOf q.2 = "th" → expiredThMatch q.2 = false) :
    extract_expired_codes doc = [] := by
  have hid : findByIdPos doc "All_Expired_SHiFT_Codes_in_Borderlands_4" = none := by
    rw [findByIdPos, List.find?_eq_none]
    intro q hq
    simp [h1 q hq]
  have hth : thFallback doc expiredThMatch = none := by
    rw [thFallback]
    have hfil : (docElems doc).filter
        (fun q => tagOf q.2 = "th" && expiredThMatch q.2) = [] := by
      rw [List.filter_eq_nil_iff]
      intro q hq
      by_cases ht : tagOf q.2 = "th"
      · simp [ht, h2 q hq ht]
      · simp [ht]
    rw [hfil]
    rfl
  rw [extract_expired_codes, expiredTableOf, hid, hth]

theorem C6_expired_absent_empty_witness : extract_expired_codes docPlain = [] :=
  C6_expired_absent_empty docPlain (by decide) (by decide)

/-! Position independence of the node lists, and the consecutive-rows
behavior of the Active-Table Pairer. -/

mutual
theorem nodeFlat_map_snd : ∀ (n : Node) (p p2 : List Nat),
    (nodeFlat p n).map (fun q => q.2) = (nodeFlat p2 n).map (fun q => q.2)
  | .text s, _, _ => rfl
  | .elem t a cs, p, p2 => by
    simp only [nodeFlat, List.map_cons]
    rw [forestFlat_map_snd cs p p2 0 0]

theorem forestFlat_map_snd : ∀ (f : Forest) (p p2 : List Nat) (i i2 : Nat),
    (forestFlat p i f).map (fun q => q.2) = (forestFlat p2 i2 f).map (fun q => q.2)
  | .nil, _, _, _, _ => rfl
  | .cons n ns, p, p2, i, i2 => by
    simp only [forestFlat, List.map_append]
    rw [nodeFlat_map_snd n (p ++ [i]) (p2 ++ [i2]),
      forestFlat_map_snd ns p p2 (i + 1) (i2 + 1)]
end

theorem nodup_rowCodesSorted (tr : Node) : (rowCodesSorted tr).Nodup :=
  nodup_sortedDedupStr _

theorem rows_filter_nil {f : Forest} {p : List Nat} {i : Nat}
    (h : ∀ e ∈ forestNodes f, tagOf e ≠ "tr") :
    (((forestFlat p i f).map (fun q => q.2)).filter isElemNode).filter
      (fun e => tagOf e = "tr") = [] := by
  rw [forestFlat_map_snd f p [] i 0]
  rw [List.filter_eq_nil_iff]
  intro e he
  have he2 := List.mem_of_mem_filter he
  simp [h e he2]

/-- Claim C9 — Implicit, consecutive code rows: for an active table whose
rows are exactly two code-bearing `tr` rows R1 then R2 (no nested rows, and
R2's codes appearing in no other row), `extract_code_expirations` consumes
R2 as R1's detail row: each of R1's codes is mapped to `detailText R2`
(the second `td` cell's text when R2 has at least two `td` cells, else R2's
whole text, after the event/normalization steps), and none of R2's codes
appears as a key of the returned mapping. -/
theorem C9_consecutive_code_rows (a1 a2 : List (String × AttrValue)) (c1 c2 : Forest)
    (hR1 : rowCodesSorted (Node.elem "tr" a1 c1) ≠ [])
    (hR2 : rowCodesSorted (Node.elem "tr" a2 c2) ≠ [])
    (hno1 : ∀ e ∈ forestNodes c1, tagOf e ≠ "tr")
    (hno2 : ∀ e ∈ forestNodes c2, tagOf e ≠ "tr")
    (hdisj : ∀ k ∈ rowCodesSorted (Node.elem "tr" a2 c2),
      k ∉ rowCodesSorted (Node.elem "tr" a1 c1)) :
    extract_code_expirations
        (activePairDoc (Node.elem "tr" a1 c1) (Node.elem "tr" a2 c2)) =
      (rowCodesSorted (Node.elem "tr" a1 c1)).map
        (fun k => (k, detailText (Node.elem "tr" a2 c2))) ∧
      (∀ k ∈ rowCodesSorted (Node.elem "tr" a1 c1),
        (extract_code_expirations
          (activePairDoc (Node.elem "tr" a1 c1) (Node.elem "tr" a2 c2))).lookup k =
          some (detailText (Node.elem "tr" a2 c2))) ∧
      (∀ k ∈ rowCodesSorted (Node.elem "tr" a2 c2),
        (extract_code_expirations
          (activePairDoc (Node.elem "tr" a1 c1) (Node.elem "tr" a2 c2))).lookup k =
          none) := by
  have htab : activeTableOf (activePairDoc (Node.elem "tr" a1 c1) (Node.elem "tr" a2 c2)) =
      some (Node.elem "table" []
        (ofList [Node.elem "tr" a1 c1, Node.elem "tr" a2 c2])) := rfl
  have hdesc : descElems (Node.elem "table" []
      (ofList [Node.elem "tr" a1 c1, Node.elem "tr" a2 c2])) =
      (Node.elem "tr" a1 c1 ::
          ((forestFlat [0] 0 c1).map (fun q => q.2)).filter isElemNode) ++
        (Node.elem "tr" a2 c2 ::
          ((forestFlat [1] 0 c2).map (fun q => q.2)).filter isElemNode) := by
    rw [descElems]
    rw [show nodeFlat [] (Node.elem "table" []
        (ofList [Node.elem "tr" a1 c1, Node.elem "tr" a2 c2])) =
      ([], Node.elem "table" [] (ofList [Node.elem "tr" a1 c1, Node.elem "tr" a2 c2])) ::
        ((([0], Node.elem "tr" a1 c1) :: forestFlat [0] 0 c1) ++
          ((([1], Node.elem "tr" a2 c2) :: forestFlat [1] 0 c2) ++ [])) from rfl]
    rw [List.drop_succ_cons, List.drop_zero, List.append_nil, List.map_append,
      List.map_cons, List.map_cons, List.filter_append,
      List.filter_cons_of_pos rfl, List.filter_cons_of_pos rfl]
  have hrows : rowsOfTable (Node.elem "table" []
      (ofList [Node.elem "tr" a1 c1, Node.elem "tr" a2 c2])) =
      [Node.elem "tr" a1 c1, Node.elem "tr" a2 c2] := by
    rw [rowsOfTable, hdesc, List.filter_append,
      List.filter_cons_of_pos rfl, List.filter_cons_of_pos rfl,
      rows_filter_nil hno1, rows_filter_nil hno2]
    rfl
  have hmain : extract_code_expirations
      (activePairDoc (Node.elem "tr" a1 c1) (Node.elem "tr" a2 c2)) =
      (rowCodesSorted (Node.elem "tr" a1 c1)).map
        (fun k => (k, detailText (Node.elem "tr" a2 c2))) := by
    rw [extract_code_expirations, htab]
    show pairRows (rowsOfTable (Node.elem "table" []
      (ofList [Node.elem "tr" a1 c1, Node.elem "tr" a2 c2]))) [] = _
    rw [hrows, pairRows_cons, if_neg fun hc => hR1 (List.isEmpty_iff.mp hc)]
    show dictInsertAll [] (rowCodesSorted (Node.elem "tr" a1 c1))
        (detailText (Node.elem "tr" a2 c2)) = _
    rw [dictInsertAll_fresh _ [] (nodup_rowCodesSorted _)
      fun k _ kv hkv => absurd hkv (List.not_mem_nil kv), List.nil_append]
  refine ⟨hmain, ?_, ?_⟩
  · intro k hk
    rw [hmain, lookup_map_const, if_pos hk]
  · intro k hk
    rw [hmain, lookup_map_const, if_neg (hdisj k hk)]

theorem C9_consecutive_code_rows_witness :
    extract_code_expirations (activePairDoc (Node.elem "tr" [] c9row1Children)
        (Node.elem "tr" [] c9row2Children)) =
      [("AAAAA-BBBBB-CCCCC-DDDDD-EEEEE", "Expires soon")] ∧
      (extract_code_expirations (activePairDoc (Node.elem "tr" [] c9row1Children)
        (Node.elem "tr" [] c9row2Children))).lookup "FFFFF-GGGGG-HHHHH-IIIII-JJJJJ" =
        none := by
  have h := C9_consecutive_code_rows [] [] c9row1Children c9row2Children
    (by decide) (by decide) (by decide) (by decide) (by decide)
  exact ⟨h.1.trans (by decide), h.2.2 "FFFFF-GGGGG-HHHHH-IIIII-JJJJJ" (by decide)⟩

end ShiftCode
